import Mathlib

/-!
Shallow embedding of the dependency-discovery and execution-ordering core of
the terragrunt-gcp MCP tool (modules `utils.py`, `stack_manager.py`,
`terragrunt_manager.py`), together with proofs of the spec claims.

Python strings are modelled as Lean `String` (a wrapper around `List Char`),
Python `str.split('/')` as `List.splitOn '/'` on the character list, and
`'/'.join` as `List.intercalate ['/']`.  Paths handed around by the code are
relative slash-separated strings.
-/

namespace TgMcp

/-- Python `path.split('/')` (equivalently `pathlib.Path(path).parts` for
well-formed relative paths, which contain no empty, `.` or absolute
segments): split the character list on `'/'`. -/
def pySplit (s : String) : List String :=
  (s.data.splitOn '/').map (fun cs => String.mk cs)

/-- Python `"/".join(parts)`: intercalate `'/'` between the parts. -/
def pyJoin (parts : List String) : String :=
  String.mk (List.intercalate ['/'] (parts.map String.data))

/-- Python `s.startswith(pre)`. -/
def pyStartsWith (pre s : String) : Bool :=
  pre.data.isPrefixOf s.data

/-- The region allow-list hard-coded in `utils.parse_terragrunt_path`
(line 68 of `utils.py`). -/
def regionAllowList : List String :=
  ["europe-west2", "us-central1", "us-east1", "asia-southeast1"]

/-- Result record of `utils.parse_terragrunt_path`. -/
structure ParsedPath where
  account : Option String
  environment : Option String
  project : Option String
  region : Option String
  resource_type : Option String
  resource_name : Option String
deriving DecidableEq, Repr

/-- `utils.parse_terragrunt_path`: split the path into parts; require at
least 4 parts with the first equal to `"live"`; parts 1-3 are
account/environment/project; part 4 is a region when it is in the allow-list,
else the resource type; at most two further segments are joined with `"/"`
into the resource name (segments beyond the 7th/8th part are ignored by the
source). -/
def parse_terragrunt_path (path : String) : ParsedPath :=
  let parts := pySplit path
  if parts.length < 4 ∨ parts.get? 0 ≠ some "live" then
    ⟨none, none, none, none, none, none⟩
  else
    let account := parts.get? 1
    let environment := parts.get? 2
    let project := parts.get? 3
    if 5 ≤ parts.length then
      let seg4 := parts.getD 4 ""
      if seg4 ∈ regionAllowList then
        let rt := if 6 ≤ parts.length then parts.get? 5 else none
        let rn :=
          if 7 ≤ parts.length then
            if 8 ≤ parts.length then
              some (parts.getD 6 "" ++ "/" ++ parts.getD 7 "")
            else parts.get? 6
          else none
        ⟨account, environment, project, some seg4, rt, rn⟩
      else
        let rn :=
          if 6 ≤ parts.length then
            if 7 ≤ parts.length then
              some (parts.getD 5 "" ++ "/" ++ parts.getD 6 "")
            else parts.get? 5
          else none
        ⟨account, environment, project, none, some seg4, rn⟩
    else
      ⟨account, environment, project, none, none, none⟩

/-- Python truthiness of an optional string argument: `if region:` appends
the value only when it is present and non-empty. -/
def optPart (o : Option String) : List String :=
  match o with
  | some s => if s = "" then [] else [s]
  | none => []

/-- `utils.build_terragrunt_path`: join `live`, account, environment,
project, the optional region, the resource type and the optional resource
name with `"/"`. -/
def build_terragrunt_path (account environment project resource_type : String)
    (region resource_name : Option String) : String :=
  pyJoin (["live", account, environment, project] ++ optPart region ++
    [resource_type] ++ optPart resource_name)

/-- `build_terragrunt_path` applied to the fields parsed out of a path, with
the mandatory string arguments defaulted to `""` when absent (the Python
caller would pass the parse result's entries directly). -/
def roundTripPath (p : String) : String :=
  let r := parse_terragrunt_path p
  build_terragrunt_path (r.account.getD "") (r.environment.getD "")
    (r.project.getD "") (r.resource_type.getD "") r.region r.resource_name

/-- Well-formedness of a path in the sense of claim C2, restricted to the
shapes the parser can reproduce: root marker `live`, account, environment,
project, optionally a region from the allow-list, a resource type, and an
optional resource name of at most two segments that is not the bare empty
string. -/
def wellFormedPath (p : String) : Prop :=
  match pySplit p with
  | "live" :: _ :: _ :: _ :: x :: rest =>
    if x ∈ regionAllowList then
      match rest with
      | _ :: names => names.length ≤ 2 ∧ names ≠ [""]
      | [] => False
    else rest.length ≤ 2 ∧ rest ≠ [""]
  | _ => False

instance (p : String) : Decidable (wellFormedPath p) := by
  unfold wellFormedPath
  repeat' split
  all_goals infer_instance

/-! ### External command runner (`utils.run_command`) -/

/-- The three ways one invocation of `utils.run_command` can go at runtime:
the subprocess completes (with its return code and captured output — both
empty under `capture_output=False`), `asyncio.wait_for` times out, or
launching/awaiting the subprocess raises an exception whose rendered message
is `message`. -/
inductive ExecOutcome where
  | completed (returncode : Int) (stdout stderr : String)
  | timedOut
  | raised (message : String)
deriving DecidableEq, Repr

/-- `utils.run_command`, as a function of the runtime outcome and the
measured elapsed time: a completed process yields its return code and
captured output; a timeout is caught and mapped to `(-1, "", "Command timed
out")`; any other exception is caught and mapped to `(-1, "", str(e))`.
The function is total, modelling that the Python `try`-`except` returns a
four-tuple on every path instead of propagating. -/
def run_command (o : ExecOutcome) (elapsed : Nat) : Int × String × String × Nat :=
  match o with
  | .completed rc out err => (rc, out, err, elapsed)
  | .timedOut => (-1, "", "Command timed out", elapsed)
  | .raised msg => (-1, "", msg, elapsed)

/-! ### Resource status probe (`terragrunt_manager._get_resource_status`) -/

/-- `models.ResourceStatus`. -/
inductive ResourceStatus where
  | unknown
  | not_deployed
  | deployed
  | outdated
  | failed
  | drift_detected
deriving DecidableEq, Repr

/-- What happens inside the `try` block of `_get_resource_status`: either
some step outside `run_command` raises (in the source only
`_prepare_environment()` runs there), or the `run_command` call is reached
and runs to a returned tuple — `run_command` itself catches subprocess
launch failures and timeouts, so it never raises into this `try`.  Its
runtime outcome is the same `ExecOutcome` used to model `run_command`. -/
inductive StatusProbeRun where
  | envFailed (message : String)
  | ran (outcome : ExecOutcome)
deriving DecidableEq, Repr

/-- `terragrunt_manager._get_resource_status`, as a function of whether the
unit's `.terragrunt-cache` directory exists and of what happened inside the
`try` block: no cache directory means `not_deployed`; an exception raised
before `run_command` (preparing the environment) is caught by the probe's
own `except` and mapped to `unknown`; otherwise the probe reads the tuple
returned by `run_command` (its elapsed-time component is discarded by the
source) — exit code `0` with non-blank stdout means `deployed`, anything
else, including the `(-1, "", str(e))` tuple that `run_command` returns for
a subprocess-launch exception, means `not_deployed`. -/
def _get_resource_status (cacheExists : Bool) (probe : StatusProbeRun) : ResourceStatus :=
  if cacheExists = false then .not_deployed
  else
    match probe with
    | .envFailed _ => .unknown
    | .ran o =>
      let r := run_command o 0
      if r.1 = 0 ∧ r.2.1.trim ≠ "" then .deployed else .not_deployed

/-! ### Execution-order planner (`stack_manager._calculate_execution_order`) -/

/-- The two fields of `models.TerragruntUnit` the planner reads: the unit's
path (its unique key) and its declared dependency paths. -/
structure TerragruntUnit where
  path : String
  dependencies : List String
deriving DecidableEq, Repr

/-- Lookup in `unit_map = {unit.path: unit for unit in units}` followed by
reading `.dependencies`: a Python dict comprehension keeps the last entry
for a duplicated key, hence the reversed `find?`.  The planner only looks up
paths that are in the map. -/
def depsOf (units : List TerragruntUnit) (p : String) : List String :=
  ((units.reverse.find? (fun u => u.path == p)).map (·.dependencies)).getD []

/-- `set(unit.path for unit in units)`. -/
def pathsOf (units : List TerragruntUnit) : Finset String :=
  (units.map (·.path)).toFinset

/-- One `while remaining_units:` pass of `_calculate_execution_order`:
`ready` is the set of remaining units with no unresolved dependency (a
dependency is unresolved iff it is itself still remaining); when `ready` is
empty the source logs a circular-dependency warning and force-emits all of
`remaining`; the emitted batch is removed from `remaining` and the loop
continues. Each batch is modelled as a `Finset` because the Python loop
iterates over a set in unspecified order. -/
def calcOrderGo (units : List TerragruntUnit) (remaining : Finset String) :
    List (Finset String) :=
  if hne : remaining.Nonempty then
    let ready := remaining.filter (fun p => ∀ d ∈ depsOf units p, d ∉ remaining)
    let batch := if ready = ∅ then remaining else ready
    batch :: calcOrderGo units (remaining \ batch)
  else []
termination_by remaining.card
decreasing_by
  apply Finset.card_lt_card
  apply Finset.sdiff_ssubset
  · split
    · exact Finset.Subset.refl _
    · exact Finset.filter_subset _ _
  · split
    · exact hne
    · next h => exact Finset.nonempty_iff_ne_empty.mpr h

/-- `stack_manager._calculate_execution_order`: empty input yields no
batches, otherwise the layered Kahn-style loop above runs on the set of all
unit paths. -/
def calculate_execution_order (units : List TerragruntUnit) : List (Finset String) :=
  if units = [] then [] else calcOrderGo units (pathsOf units)

/-- Structurally recursive twin of `calcOrderGo`, bounded by a fuel
parameter, used to evaluate the planner on concrete inputs (the
well-founded recursion of `calcOrderGo` does not reduce inside the kernel).
`calcOrderGo_eq_fuel` proves the two agree whenever the fuel covers the
cardinality of `remaining`. -/
def calcOrderFuel (units : List TerragruntUnit) :
    Nat → Finset String → List (Finset String)
  | 0, _ => []
  | fuel + 1, remaining =>
    if remaining.Nonempty then
      let ready := remaining.filter (fun p => ∀ d ∈ depsOf units p, d ∉ remaining)
      let batch := if ready = ∅ then remaining else ready
      batch :: calcOrderFuel units fuel (remaining \ batch)
    else []

/-- Acyclicity of the in-set dependency relation of a unit list, expressed
through the existence of a rank (topological height) function: every
dependency edge between two member paths strictly decreases the rank.  For
a finite graph this is equivalent to the absence of dependency cycles. -/
def AcyclicUnits (units : List TerragruntUnit) : Prop :=
  ∃ rank : String → ℕ,
    ∀ p ∈ pathsOf units, ∀ d ∈ depsOf units p, d ∈ pathsOf units → rank d < rank p

/-! ### Resource discovery (`terragrunt_manager.discover_resources`) -/

/-- The `models.ResourceType` enum values: `ResourceType(s)` succeeds for
exactly these strings (any other string makes `_create_resource_from_path`
log a warning and return `None`). -/
def knownResourceTypes : List String :=
  ["folder", "project", "vpc-network", "private-service-access", "compute",
   "sqlserver", "bigquery", "secrets"]

/-- The build-cache directory name convention. -/
def cacheDirName : String := ".terragrunt-cache"

/-- Python `".terragrunt-cache" in name`: substring test on one path
component. -/
def containsCacheSubstr (s : String) : Bool :=
  decide (cacheDirName.data <:+: s.data)

/-- Python `".terragrunt-cache" in root` for a walk root given by its
root-relative components: since the needle contains no `/`, it is a
substring of the slash-joined path iff it is a substring of one component
(the scan root itself is assumed clean). -/
def rootHasCache (path : List String) : Bool :=
  path.any containsCacheSubstr

/-- A directory tree as seen by `os.walk`: a name, the plain files directly
inside, and the subdirectories. -/
inductive DirTree where
  | node (dirName : String) (files : List String) (children : List DirTree)
deriving Repr

/-- The directory's own name. -/
def DirTree.dirName : DirTree → String
  | .node n _ _ => n

/-- The emission test of `discover_resources` at one walk root (a directory
holding component path `path` relative to the repository root): the root
must not contain the cache marker (the `continue` guard), must directly
contain `terragrunt.hcl`, must pass the optional environment filter, must
parse to a truthy `resource_type`, and that resource type must be a known
`ResourceType` enum value (otherwise `_create_resource_from_path` returns
`None`). -/
def emitResourceAt (envFilter : Option String) (path : List String)
    (files : List String) : Bool :=
  if rootHasCache path then false
  else if files.contains "terragrunt.hcl" then
    let parsed := parse_terragrunt_path (pyJoin path)
    let envOk :=
      match envFilter with
      | none => true
      | some e => parsed.environment == some e
    let typeOk :=
      match parsed.resource_type with
      | some rt => decide (rt ≠ "") && decide (rt ∈ knownResourceTypes)
      | none => false
    envOk && typeOk
  else false

mutual

/-- The `os.walk` loop of `discover_resources` over one directory, top-down:
yield the current root (when `emitResourceAt` accepts it), then walk the
subdirectories.  When the current root carries the cache marker the source
`continue`s before pruning, so all children are walked (they all carry the
marker themselves and yield nothing); otherwise subdirectories named
`.terragrunt-cache` are removed from the walk (`dirs.remove`), i.e. never
descended into. -/
def discoverGo (envFilter : Option String) (path : List String) :
    DirTree → List (List String)
  | .node _ files children =>
    (if emitResourceAt envFilter path files then [path] else []) ++
      discoverChildren envFilter path (rootHasCache path) children

/-- Walk the subdirectory list of one root; `skipPrune` records whether the
`continue` guard fired on the root (in which case `dirs.remove` was skipped
and every child is descended into). -/
def discoverChildren (envFilter : Option String) (path : List String)
    (skipPrune : Bool) : List DirTree → List (List String)
  | [] => []
  | c :: cs =>
    (if skipPrune ∨ c.dirName ≠ cacheDirName then
      discoverGo envFilter (path ++ [c.dirName]) c
    else []) ++
      discoverChildren envFilter path skipPrune cs

end

/-- `terragrunt_manager.discover_resources`, modelled on the subtree rooted
at the repository's `live` directory: walk it with initial relative path
`live` and return the slash-joined relative paths of the materialized
resources, in walk order. -/
def discover_resources (envFilter : Option String) (live : DirTree) : List String :=
  (discoverGo envFilter ["live"] live).map pyJoin

/-! ### Dependency extraction (`terragrunt_manager._get_resource_dependencies`) -/

/-- The component-processing loop of CPython `posixpath.normpath` for a
relative path: drop empty and `.` components; `..` pops the last
accumulated component unless the accumulator is empty or already ends in
`..`, in which case it is kept. -/
def normpathComps (acc : List String) : List String → List String
  | [] => acc
  | c :: rest =>
    if c = "" ∨ c = "." then normpathComps acc rest
    else if c ≠ ".." ∨ acc = [] ∨ acc.getLast? = some ".." then
      normpathComps (acc ++ [c]) rest
    else normpathComps acc.dropLast rest

/-- `os.path.normpath` for a relative path: split on `/`, run the component
loop, join with `/`; an empty result is rendered as `.`. -/
def normpath (p : String) : String :=
  let comps := normpathComps [] (pySplit p)
  if comps = [] then "." else pyJoin comps

/-- `os.path.join(a, b)` in the only situation the extractor uses it: `a` a
non-empty relative directory path without trailing slash and `b` not
absolute, so the result is `a + "/" + b`. -/
def os_path_join (a b : String) : String := a ++ "/" ++ b

/-- The per-match body of the `re.finditer` loop in
`terragrunt_manager._get_resource_dependencies` (and equivalently
`stack_manager._get_unit_dependencies`, which joins from the unit file's
directory and relativizes against the root): a captured `config_path`
starting with `../` is joined onto the unit's own root-relative directory
`resource_path` and normalized; any other captured path is kept verbatim. -/
def resolveDepPath (resource_path dep_path : String) : String :=
  if pyStartsWith "../" dep_path then normpath (os_path_join resource_path dep_path)
  else dep_path

/-- `terragrunt_manager._get_resource_dependencies`, with the regex scan
abstracted as the ordered list of captured `config_path` strings
(`re.finditer` yields matches in order of appearance; the surrounding
`dependency "<label>" { ... config_path = "<path>" ... }` surface syntax is
opaque text to the extractor): each captured path is resolved and the
results are returned in match order. -/
def _get_resource_dependencies (resource_path : String)
    (config_paths : List String) : List String :=
  config_paths.map (resolveDepPath resource_path)

/-- A concrete tree whose only unit-definition file sits below a
`.terragrunt-cache` directory (claim C5's synthetic scenario). -/
def cacheOnlyTree : DirTree :=
  .node "live" []
    [.node "acct" []
      [.node "dev" []
        [.node "proj" []
          [.node ".terragrunt-cache" []
            [.node "compute" ["terragrunt.hcl"] []]]]]]

/-- A concrete tree holding one real unit plus a cache subtree with
unit-definition files inside it. -/
def exampleLiveTree : DirTree :=
  .node "live" []
    [.node "acct" []
      [.node "dev" []
        [.node "proj" []
          [.node "compute" ["terragrunt.hcl"]
            [.node ".terragrunt-cache" ["terragrunt.hcl"]
              [.node "deep" ["terragrunt.hcl"] []]],
           .node "secrets" ["terragrunt.hcl"] []]]]]

/-! ## Lemmas about the execution-order planner -/

lemma ite_batch_subset (s t : Finset String) (hsub : t ⊆ s) :
    (if t = ∅ then s else t) ⊆ s := by
  split
  · exact Finset.Subset.refl _
  · exact hsub

lemma ite_batch_nonempty (s t : Finset String) (hne : s.Nonempty) :
    (if t = ∅ then s else t).Nonempty := by
  split
  · exact hne
  · next h => exact Finset.nonempty_iff_ne_empty.mpr h

lemma calcOrderGo_eq_fuel (units : List TerragruntUnit) (fuel : Nat)
    (remaining : Finset String) (h : remaining.card ≤ fuel) :
    calcOrderGo units remaining = calcOrderFuel units fuel remaining := by
  induction fuel generalizing remaining with
  | zero =>
    have : remaining = ∅ := Finset.card_eq_zero.mp (Nat.le_zero.mp h)
    subst this
    rw [calcOrderGo, calcOrderFuel]
    simp
  | succ n ih =>
    rw [calcOrderGo, calcOrderFuel]
    by_cases hne : remaining.Nonempty
    · simp only [hne, dif_pos, if_pos]
      congr 1
      apply ih
      have hlt : (remaining \ (if (Finset.filter
          (fun p => ∀ d ∈ depsOf units p, d ∉ remaining) remaining) = ∅ then remaining
          else (Finset.filter (fun p => ∀ d ∈ depsOf units p, d ∉ remaining)
            remaining))).card < remaining.card := by
        apply Finset.card_lt_card
        apply Finset.sdiff_ssubset
        · exact ite_batch_subset _ _ (Finset.filter_subset _ _)
        · exact ite_batch_nonempty _ _ hne
      omega
    · simp [hne]

lemma calculate_execution_order_eval (units : List TerragruntUnit) :
    calculate_execution_order units =
      calcOrderFuel units (pathsOf units).card (pathsOf units) := by
  rw [calculate_execution_order]
  by_cases h : units = []
  · subst h
    rw [calcOrderFuel.eq_def]
    simp [pathsOf]
  · rw [if_neg h]
    exact calcOrderGo_eq_fuel _ _ _ (le_refl _)

lemma mem_calcOrderGo_subset (units : List TerragruntUnit) (s : Finset String) :
    ∀ b ∈ calcOrderGo units s, b ⊆ s ∧ b.Nonempty := by
  induction s using calcOrderGo.induct units with
  | case1 x hne ready batch ih =>
    simp only [batch, ready, dite_eq_ite] at ih
    rw [calcOrderGo, dif_pos hne]
    intro b hb
    rcases List.mem_cons.mp hb with hb | hb
    · subst hb
      constructor
      · exact ite_batch_subset _ _ (Finset.filter_subset _ _)
      · exact ite_batch_nonempty _ _ hne
    · rcases ih b hb with ⟨hsub, hbne⟩
      exact ⟨hsub.trans (Finset.sdiff_subset), hbne⟩
  | case2 x hne =>
    rw [calcOrderGo, dif_neg hne]
    intro b hb
    simp at hb

lemma calcOrderGo_union (units : List TerragruntUnit) (s : Finset String) :
    (calcOrderGo units s).foldr (· ∪ ·) ∅ = s := by
  induction s using calcOrderGo.induct units with
  | case1 x hne ready batch ih =>
    simp only [batch, ready, dite_eq_ite] at ih
    rw [calcOrderGo, dif_pos hne]
    simp only [List.foldr_cons, ih]
    have hsub : (if Finset.filter (fun p => ∀ d ∈ depsOf units p, d ∉ x) x = ∅ then x
        else Finset.filter (fun p => ∀ d ∈ depsOf units p, d ∉ x) x) ⊆ x :=
      ite_batch_subset _ _ (Finset.filter_subset _ _)
    exact Finset.union_sdiff_of_subset hsub
  | case2 x hne =>
    rw [calcOrderGo, dif_neg hne]
    simp [Finset.not_nonempty_iff_eq_empty.mp hne]

lemma calcOrderGo_pairwise_disjoint (units : List TerragruntUnit) (s : Finset String) :
    (calcOrderGo units s).Pairwise (fun a b => Disjoint a b) := by
  induction s using calcOrderGo.induct units with
  | case1 x hne ready batch ih =>
    simp only [batch, ready, dite_eq_ite] at ih
    rw [calcOrderGo, dif_pos hne]
    refine List.pairwise_cons.mpr ⟨?_, ih⟩
    intro b hb
    have hsub := (mem_calcOrderGo_subset units _ b hb).1
    exact Finset.disjoint_sdiff.mono_right hsub
  | case2 x hne =>
    rw [calcOrderGo, dif_neg hne]
    simp

lemma acyclic_ready_nonempty (units : List TerragruntUnit) (rank : String → ℕ)
    (x : Finset String) (hne : x.Nonempty)
    (hr : ∀ p ∈ x, ∀ d ∈ depsOf units p, d ∈ x → rank d < rank p) :
    (x.filter (fun p => ∀ d ∈ depsOf units p, d ∉ x)).Nonempty := by
  obtain ⟨p₀, hp₀x, hmin⟩ := Finset.exists_min_image x rank hne
  refine ⟨p₀, Finset.mem_filter.mpr ⟨hp₀x, ?_⟩⟩
  intro d hd hdx
  exact absurd (hr p₀ hp₀x d hd hdx) (not_lt.mpr (hmin d hdx))

lemma calcOrderGo_dep_earlier (units : List TerragruntUnit) (rank : String → ℕ) :
    ∀ s : Finset String,
      (∀ p ∈ s, ∀ d ∈ depsOf units p, d ∈ s → rank d < rank p) →
      ∀ i bi, (calcOrderGo units s)[i]? = some bi → ∀ p ∈ bi, ∀ d ∈ depsOf units p,
        d ∈ s → ∃ j : ℕ, ∃ bj : Finset String,
          j < i ∧ (calcOrderGo units s)[j]? = some bj ∧ d ∈ bj := by
  intro s
  induction s using calcOrderGo.induct units with
  | case1 x hne ready batch ih =>
    simp only [batch, ready, dite_eq_ite] at ih
    intro hr i bi hbi p hp d hd hdx
    have hready : (x.filter (fun p => ∀ d ∈ depsOf units p, d ∉ x)).Nonempty :=
      acyclic_ready_nonempty units rank x hne hr
    have hbeq : (if x.filter (fun p => ∀ d ∈ depsOf units p, d ∉ x) = ∅ then x
        else x.filter (fun p => ∀ d ∈ depsOf units p, d ∉ x)) =
        x.filter (fun p => ∀ d ∈ depsOf units p, d ∉ x) :=
      if_neg (Finset.nonempty_iff_ne_empty.mp hready)
    rw [calcOrderGo, dif_pos hne] at hbi ⊢
    simp only [hbeq] at hbi ih ⊢
    have hr' : ∀ p ∈ x \ x.filter (fun p => ∀ d ∈ depsOf units p, d ∉ x),
        ∀ d ∈ depsOf units p, d ∈ x \ x.filter (fun p => ∀ d ∈ depsOf units p, d ∉ x) →
        rank d < rank p := by
      intro q hq e he hex
      exact hr q (Finset.mem_sdiff.mp hq).1 e he (Finset.mem_sdiff.mp hex).1
    cases i with
    | zero =>
      rw [List.getElem?_cons_zero] at hbi
      injection hbi with hbi
      subst hbi
      have := (Finset.mem_filter.mp hp).2
      exact absurd hdx (this d hd)
    | succ k =>
      rw [List.getElem?_cons_succ] at hbi
      by_cases hdr : d ∈ x.filter (fun p => ∀ d ∈ depsOf units p, d ∉ x)
      · exact ⟨0, x.filter (fun p => ∀ d ∈ depsOf units p, d ∉ x), Nat.succ_pos k,
          List.getElem?_cons_zero, hdr⟩
      · have hdx' : d ∈ x \ x.filter (fun p => ∀ d ∈ depsOf units p, d ∉ x) :=
          Finset.mem_sdiff.mpr ⟨hdx, hdr⟩
        obtain ⟨j, bj, hj, hgj, hdbj⟩ := ih hr' k bi hbi p hp d hd hdx'
        exact ⟨j + 1, bj, Nat.succ_lt_succ hj,
          by rw [List.getElem?_cons_succ]; exact hgj, hdbj⟩
  | case2 x hne =>
    intro hr i bi hbi
    rw [calcOrderGo, dif_neg hne] at hbi
    simp at hbi

lemma mem_foldr_union {l : List (Finset String)} {p : String} :
    p ∈ l.foldr (· ∪ ·) ∅ ↔ ∃ b ∈ l, p ∈ b := by
  induction l with
  | nil => simp
  | cons a l ih => simp [Finset.mem_union, ih]

/-! ## Claims about the execution-order planner -/

/-- Claim C1: for every finite set of units whose in-set dependency relation
is acyclic (witnessed by a rank function), the planner places every unit at
a strictly greater batch index than each of its dependencies that is itself
a member of the input set: if `p` sits in batch `i` and its dependency `d`
sits in batch `j`, then `j < i`. -/
theorem acyclic_strict_batch_order (units : List TerragruntUnit)
    (hacyc : AcyclicUnits units) (i j : ℕ) (p d : String) (bi bj : Finset String)
    (hbi : (calculate_execution_order units)[i]? = some bi) (hp : p ∈ bi)
    (hd : d ∈ depsOf units p)
    (hbj : (calculate_execution_order units)[j]? = some bj) (hdj : d ∈ bj) :
    j < i := by
  obtain ⟨rank, hr⟩ := hacyc
  by_cases hu : units = []
  · subst hu
    rw [calculate_execution_order] at hbi
    simp at hbi
  · rw [calculate_execution_order, if_neg hu] at hbi hbj
    have hbj_mem : bj ∈ calcOrderGo units (pathsOf units) := by
      obtain ⟨hlen, heq⟩ := List.getElem?_eq_some_iff.mp hbj
      exact heq ▸ List.getElem_mem hlen
    have hdset : d ∈ pathsOf units :=
      (mem_calcOrderGo_subset units _ bj hbj_mem).1 hdj
    obtain ⟨j', bj', hj', hgj', hdbj'⟩ :=
      calcOrderGo_dep_earlier units rank (pathsOf units) hr i bi hbi p hp d hd hdset
    have hdisj := calcOrderGo_pairwise_disjoint units (pathsOf units)
    obtain ⟨hlj, hej⟩ := List.getElem?_eq_some_iff.mp hbj
    obtain ⟨hlj', hej'⟩ := List.getElem?_eq_some_iff.mp hgj'
    rcases Nat.lt_trichotomy j j' with h | h | h
    · have := (List.pairwise_iff_getElem.mp hdisj) j j' hlj hlj' h
      rw [hej, hej'] at this
      exact absurd hdbj' (Finset.disjoint_left.mp this hdj)
    · omega
    · have := (List.pairwise_iff_getElem.mp hdisj) j' j hlj' hlj h
      rw [hej, hej'] at this
      exact absurd hdj (Finset.disjoint_left.mp this hdbj')

/-- Witness for claim C1's theorem at a concrete acyclic two-unit input:
unit `a` depends on `b`, the planner puts `b` in batch 0 and `a` in
batch 1, and the theorem yields `0 < 1`. -/
theorem acyclic_strict_batch_order_witness :
    AcyclicUnits [⟨"a", ["b"]⟩, ⟨"b", []⟩] ∧ (0 : ℕ) < 1 := by
  have hacyc : AcyclicUnits [⟨"a", ["b"]⟩, ⟨"b", []⟩] :=
    ⟨fun s => if s = "b" then 0 else 1, by decide⟩
  refine ⟨hacyc, ?_⟩
  have h1 : (calculate_execution_order [⟨"a", ["b"]⟩, ⟨"b", []⟩])[1]? = some {"a"} := by
    rw [calculate_execution_order_eval]
    decide
  have h0 : (calculate_execution_order [⟨"a", ["b"]⟩, ⟨"b", []⟩])[0]? = some {"b"} := by
    rw [calculate_execution_order_eval]
    decide
  exact acyclic_strict_batch_order _ hacyc 1 0 "a" "b" {"a"} {"b"}
    h1 (by decide) (by decide) h0 (by decide)

/-- Claim C3: the planner is a total function (its `while` loop always
terminates, proved by the well-founded recursion of `calcOrderGo`), every
input unit path is emitted in some batch even for cyclic inputs, and on the
concrete two-unit cycle (`A` depends on `B`, `B` depends on `A`) the two
units are force-emitted together as the single final batch. -/
theorem cycle_terminates_and_covers :
    (∀ (units : List TerragruntUnit) (p : String), p ∈ pathsOf units →
      ∃ b ∈ calculate_execution_order units, p ∈ b) ∧
    calculate_execution_order [⟨"A", ["B"]⟩, ⟨"B", ["A"]⟩] = [{"A", "B"}] := by
  constructor
  · intro units p hp
    by_cases hu : units = []
    · subst hu
      simp [pathsOf] at hp
    · rw [calculate_execution_order, if_neg hu]
      exact mem_foldr_union.mp (by rw [calcOrderGo_union]; exact hp)
  · rw [calculate_execution_order_eval]
    decide

/-- Witness for claim C3's theorem: applied to the concrete two-unit cycle,
unit `A` is a member of the input path set and appears in an emitted
batch. -/
theorem cycle_terminates_and_covers_witness :
    "A" ∈ pathsOf [⟨"A", ["B"]⟩, ⟨"B", ["A"]⟩] ∧
    ∃ b ∈ calculate_execution_order [⟨"A", ["B"]⟩, ⟨"B", ["A"]⟩], "A" ∈ b :=
  ⟨by decide, cycle_terminates_and_covers.1 _ "A" (by decide)⟩

/-- Claim C4: for every non-empty unit list in which no unit's dependency
list contains the path of another unit of the set, the planner returns
exactly one batch, and that batch is the whole input path set. -/
theorem independent_units_single_batch (units : List TerragruntUnit)
    (hne : units ≠ [])
    (hfree : ∀ u ∈ units, ∀ d ∈ u.dependencies, d ∉ pathsOf units) :
    calculate_execution_order units = [pathsOf units] := by
  rw [calculate_execution_order, if_neg hne]
  have hsne : (pathsOf units).Nonempty := by
    cases units with
    | nil => exact absurd rfl hne
    | cons u l => exact ⟨u.path, by simp [pathsOf]⟩
  have hpred : ∀ p ∈ pathsOf units, ∀ d ∈ depsOf units p, d ∉ pathsOf units := by
    intro p hp d hd
    unfold depsOf at hd
    cases hfind : units.reverse.find? (fun u => u.path == p) with
    | none =>
      rw [hfind] at hd
      simp at hd
    | some u =>
      rw [hfind] at hd
      simp at hd
      have hu : u ∈ units := List.mem_reverse.mp (List.mem_of_find?_eq_some hfind)
      exact hfree u hu d hd
  have hfilter : (pathsOf units).filter
      (fun p => ∀ d ∈ depsOf units p, d ∉ pathsOf units) = pathsOf units :=
    Finset.filter_eq_self.mpr hpred
  rw [calcOrderGo, dif_pos hsne]
  simp only [hfilter, ite_self, Finset.sdiff_self]
  rw [calcOrderGo, dif_neg (by simp : ¬(∅ : Finset String).Nonempty)]

/-- Witness for claim C4's theorem: two units whose only dependency points
outside the set are emitted as one batch holding both paths. -/
theorem independent_units_single_batch_witness :
    ([⟨"x", ["ext"]⟩, ⟨"y", []⟩] : List TerragruntUnit) ≠ [] ∧
    (∀ u ∈ ([⟨"x", ["ext"]⟩, ⟨"y", []⟩] : List TerragruntUnit),
      ∀ d ∈ u.dependencies, d ∉ pathsOf [⟨"x", ["ext"]⟩, ⟨"y", []⟩]) ∧
    calculate_execution_order [⟨"x", ["ext"]⟩, ⟨"y", []⟩] =
      [pathsOf [⟨"x", ["ext"]⟩, ⟨"y", []⟩]] :=
  ⟨by decide, by decide,
    independent_units_single_batch _ (by decide) (by decide)⟩

/-- Claim C9: for every input list of units — cyclic inputs and the
force-emit fallback included — the emitted batches form a partition of the
input unit path set: they are pairwise disjoint and their union is exactly
the set of input unit paths, so each path appears in exactly one batch. -/
theorem batches_partition_input (units : List TerragruntUnit) :
    List.Pairwise (fun a b => Disjoint a b) (calculate_execution_order units) ∧
    (calculate_execution_order units).foldr (· ∪ ·) ∅ = pathsOf units := by
  by_cases hu : units = []
  · subst hu
    rw [calculate_execution_order]
    simp [pathsOf]
  · rw [calculate_execution_order, if_neg hu]
    exact ⟨calcOrderGo_pairwise_disjoint units _, calcOrderGo_union units _⟩

/-! ## Lemmas about the path grammar round trip -/

lemma pyJoin_pySplit (p : String) : pyJoin (pySplit p) = p := by
  cases p with
  | mk data =>
    simp only [pyJoin, pySplit, List.map_map]
    have hcomp : (String.data ∘ String.mk) = id := rfl
    rw [hcomp, List.map_id, List.intercalate_splitOn]

lemma pair_name_ne_empty (n1 n2 : String) : n1 ++ "/" ++ n2 ≠ "" := by
  intro hcon
  have hdata := congrArg String.data hcon
  simp [String.data_append] at hdata

lemma pyJoin_pair_step (xs : List String) (n1 n2 : String) :
    pyJoin (xs ++ [n1 ++ "/" ++ n2]) = pyJoin (xs ++ [n1, n2]) := by
  apply String.ext
  induction xs with
  | nil =>
    simp [pyJoin, List.intercalate, List.intersperse, String.data_append]
  | cons hd tl ih =>
    cases tl with
    | nil =>
      simp [pyJoin, List.intercalate, List.intersperse, String.data_append,
        List.append_assoc]
    | cons hd2 tl2 =>
      simp only [pyJoin, List.intercalate, List.map_cons, List.map_append, List.map_nil,
        List.cons_append, List.intersperse_cons_cons, List.flatten_cons, List.append_assoc,
        String.data_append, List.nil_append] at ih ⊢
      rw [ih]

lemma region_ne_empty {r : String} (hr : r ∈ regionAllowList) : r ≠ "" := by
  intro hcon
  subst hcon
  revert hr
  decide

lemma roundTrip_shape_nr0 (p a e pr rt : String)
    (heq : pySplit p = ["live", a, e, pr, rt])
    (hx : rt ∉ regionAllowList) : roundTripPath p = p := by
  conv_rhs => rw [← pyJoin_pySplit p, heq]
  unfold roundTripPath parse_terragrunt_path
  simp only [heq]
  norm_num
  rw [if_neg hx]
  simp [build_terragrunt_path, optPart]

lemma roundTrip_shape_nr1 (p a e pr rt n1 : String)
    (heq : pySplit p = ["live", a, e, pr, rt, n1])
    (hx : rt ∉ regionAllowList) (hn : n1 ≠ "") : roundTripPath p = p := by
  conv_rhs => rw [← pyJoin_pySplit p, heq]
  unfold roundTripPath parse_terragrunt_path
  simp only [heq]
  norm_num
  rw [if_neg hx]
  simp [build_terragrunt_path, optPart, hn]

lemma roundTrip_shape_nr2 (p a e pr rt n1 n2 : String)
    (heq : pySplit p = ["live", a, e, pr, rt, n1, n2])
    (hx : rt ∉ regionAllowList) : roundTripPath p = p := by
  conv_rhs => rw [← pyJoin_pySplit p, heq]
  unfold roundTripPath parse_terragrunt_path
  simp only [heq]
  norm_num
  rw [if_neg hx]
  simp only [build_terragrunt_path, optPart, if_neg (pair_name_ne_empty n1 n2)]
  have := pyJoin_pair_step ["live", a, e, pr, rt] n1 n2
  simpa using this

lemma roundTrip_shape_r0 (p a e pr r rt : String)
    (heq : pySplit p = ["live", a, e, pr, r, rt])
    (hr : r ∈ regionAllowList) : roundTripPath p = p := by
  conv_rhs => rw [← pyJoin_pySplit p, heq]
  unfold roundTripPath parse_terragrunt_path
  simp only [heq]
  norm_num
  rw [if_pos hr]
  simp [build_terragrunt_path, optPart, region_ne_empty hr]

lemma roundTrip_shape_r1 (p a e pr r rt n1 : String)
    (heq : pySplit p = ["live", a, e, pr, r, rt, n1])
    (hr : r ∈ regionAllowList) (hn : n1 ≠ "") : roundTripPath p = p := by
  conv_rhs => rw [← pyJoin_pySplit p, heq]
  unfold roundTripPath parse_terragrunt_path
  simp only [heq]
  norm_num
  rw [if_pos hr]
  simp [build_terragrunt_path, optPart, region_ne_empty hr, hn]

lemma roundTrip_shape_r2 (p a e pr r rt n1 n2 : String)
    (heq : pySplit p = ["live", a, e, pr, r, rt, n1, n2])
    (hr : r ∈ regionAllowList) : roundTripPath p = p := by
  conv_rhs => rw [← pyJoin_pySplit p, heq]
  unfold roundTripPath parse_terragrunt_path
  simp only [heq]
  norm_num
  rw [if_pos hr]
  simp only [build_terragrunt_path, optPart, if_neg (pair_name_ne_empty n1 n2),
    if_neg (region_ne_empty hr)]
  have := pyJoin_pair_step ["live", a, e, pr, r, rt] n1 n2
  simpa using this

/-! ## Claims about the path grammar -/

/-- Claim C2, counterexample: the claim as stated fails for a well-formed
path whose resource name has three segments — the parser only keeps the
first two name segments, so the build of the parse of
`live/a/e/p/rt/x/y/z` is `live/a/e/p/rt/x/y`, not the original path. -/
theorem parse_build_roundtrip_counterexample :
    roundTripPath "live/a/e/p/rt/x/y/z" = "live/a/e/p/rt/x/y" ∧
    roundTripPath "live/a/e/p/rt/x/y/z" ≠ "live/a/e/p/rt/x/y/z" := by
  decide

/-- Claim C2, amended: for every well-formed path — root marker `live`,
account, environment, project, optionally a region from the allow-list, a
resource type not in the allow-list, and an optional resource name of at
most two slash-separated segments that is not the empty string — building
from the parsed components returns the path exactly. -/
theorem parse_build_roundtrip (p : String) (h : wellFormedPath p) :
    roundTripPath p = p := by
  unfold wellFormedPath at h
  split at h
  next a e pr x rest heq =>
    by_cases hx : x ∈ regionAllowList
    · rw [if_pos hx] at h
      match rest, h with
      | rt :: names, h =>
        obtain ⟨hlen, hnn⟩ := h
        match names, hlen, hnn with
        | [], _, _ => exact roundTrip_shape_r0 p a e pr x rt heq hx
        | [n1], _, hnn =>
          exact roundTrip_shape_r1 p a e pr x rt n1 heq hx (by simpa using hnn)
        | [n1, n2], _, _ => exact roundTrip_shape_r2 p a e pr x rt n1 n2 heq hx
    · rw [if_neg hx] at h
      obtain ⟨hlen, hnn⟩ := h
      match rest, hlen, hnn with
      | [], _, _ => exact roundTrip_shape_nr0 p a e pr x heq hx
      | [n1], _, hnn =>
        exact roundTrip_shape_nr1 p a e pr x n1 heq hx (by simpa using hnn)
      | [n1, n2], _, _ => exact roundTrip_shape_nr2 p a e pr x n1 n2 heq hx
  next =>
    exact absurd h not_false

/-- Witness for claim C2's amended theorem at a concrete well-formed path
with region and a two-segment resource name. -/
theorem parse_build_roundtrip_witness :
    wellFormedPath "live/acct/dev/proj/europe-west2/compute/db/tmpl" ∧
    roundTripPath "live/acct/dev/proj/europe-west2/compute/db/tmpl" =
      "live/acct/dev/proj/europe-west2/compute/db/tmpl" :=
  ⟨by decide, parse_build_roundtrip _ (by decide)⟩

/-! ## Lemmas about dependency-path resolution -/

lemma splitOn_append {α : Type} [DecidableEq α] (x : α) (as bs : List α) :
    (as ++ x :: bs).splitOn x = as.splitOn x ++ bs.splitOn x := by
  induction as with
  | nil => simp [List.splitOn, List.splitOnP_cons]
  | cons a as ih =>
    simp only [List.cons_append, List.splitOn, List.splitOnP_cons] at ih ⊢
    by_cases ha : (a == x) = true
    · simp [ha, ih]
    · simp only [ha, Bool.false_eq_true, if_false]
      rw [ih]
      cases hsp : as.splitOnP (· == x) with
      | nil => exact absurd hsp (List.splitOnP_ne_nil _ _)
      | cons h t => simp

lemma pySplit_join_sep (a b : String) :
    pySplit (a ++ "/" ++ b) = pySplit a ++ pySplit b := by
  unfold pySplit
  have hdata : (a ++ "/" ++ b).data = a.data ++ '/' :: b.data := by
    simp [String.data_append]
  rw [hdata, splitOn_append, List.map_append]

lemma normpathComps_good (ds : List String)
    (hgood : ∀ c ∈ ds, c ≠ "" ∧ c ≠ "." ∧ c ≠ "..") :
    ∀ acc rest, normpathComps acc (ds ++ rest) = normpathComps (acc ++ ds) rest := by
  induction ds with
  | nil => simp
  | cons c cs ih =>
    intro acc rest
    obtain ⟨h1, h2, h3⟩ := hgood c (List.mem_cons_self c cs)
    rw [List.cons_append, normpathComps, if_neg (by simp [h1, h2]), if_pos (Or.inl h3),
      ih (fun x hx => hgood x (List.mem_cons_of_mem c hx)) (acc ++ [c]) rest]
    simp

lemma normpathComps_dotdot (acc : List String) (hne : acc ≠ [])
    (hlast : acc.getLast? ≠ some "..") (rest : List String) :
    normpathComps acc (".." :: rest) = normpathComps acc.dropLast rest := by
  rw [normpathComps, if_neg (by simp), if_neg (by simp [hne, hlast])]

lemma good_getLast_ne (ds : List String)
    (hgood : ∀ c ∈ ds, c ≠ "" ∧ c ≠ "." ∧ c ≠ "..") :
    ds.getLast? ≠ some ".." := by
  intro hcon
  exact (hgood _ (List.mem_of_getLast?_eq_some hcon)).2.2 rfl

/-! ## Claim about dependency extraction -/

/-- Claim C7: for a unit located at a root-relative directory with at least
two normal components, the extractor resolves the captured `config_path`
values `../a` and `../../b/c` against the unit's own location into the
scan-root-relative paths obtained by manual normalization (pop one,
respectively two, trailing components, then append), returns a path not
starting with `../` verbatim, and keeps all matches in order of
appearance. -/
theorem dependency_extraction_resolves (rp : String) (ds : List String)
    (hsplit : pySplit rp = ds) (hlen : 2 ≤ ds.length)
    (hgood : ∀ c ∈ ds, c ≠ "" ∧ c ≠ "." ∧ c ≠ "..") :
    _get_resource_dependencies rp ["../a", "../../b/c", "vpc-network/main"] =
      [pyJoin (ds.dropLast ++ ["a"]), pyJoin (ds.dropLast.dropLast ++ ["b", "c"]),
       "vpc-network/main"] := by
  have hdsne : ds ≠ [] := by
    intro hcon
    rw [hcon] at hlen
    simp at hlen
  have hdlne : ds.dropLast ≠ [] := by
    intro hcon
    have := congrArg List.length hcon
    simp [List.length_dropLast] at this
    omega
  have hgood' : ∀ c ∈ ds.dropLast, c ≠ "" ∧ c ≠ "." ∧ c ≠ ".." :=
    fun c hc => hgood c (List.dropLast_subset ds hc)
  unfold _get_resource_dependencies
  simp only [List.map_cons, List.map_nil]
  have h1 : resolveDepPath rp "../a" = pyJoin (ds.dropLast ++ ["a"]) := by
    unfold resolveDepPath
    rw [if_pos (by decide)]
    unfold normpath os_path_join
    rw [pySplit_join_sep, hsplit]
    have hsp : pySplit "../a" = ["..", "a"] := by decide
    rw [hsp]
    rw [show ds ++ ["..", "a"] = ds ++ (".." :: ["a"]) from rfl]
    rw [normpathComps_good ds hgood [] (".." :: ["a"])]
    rw [List.nil_append]
    rw [normpathComps_dotdot ds hdsne (good_getLast_ne ds hgood)]
    rw [show (["a"] : List String) = ["a"] ++ [] from rfl]
    rw [normpathComps_good ["a"] (by decide) ds.dropLast []]
    rw [normpathComps]
    rw [if_neg (by simp [hdlne])]
    simp
  have h2 : resolveDepPath rp "../../b/c" = pyJoin (ds.dropLast.dropLast ++ ["b", "c"]) := by
    unfold resolveDepPath
    rw [if_pos (by decide)]
    unfold normpath os_path_join
    rw [pySplit_join_sep, hsplit]
    have hsp : pySplit "../../b/c" = ["..", "..", "b", "c"] := by decide
    rw [hsp]
    rw [show (["..", "..", "b", "c"] : List String) = ".." :: [".."] ++ ["b", "c"] from rfl]
    rw [normpathComps_good ds hgood [] _]
    rw [List.nil_append]
    rw [show (".." :: [".."] ++ ["b", "c"] : List String) =
      ".." :: (".." :: ["b", "c"]) from rfl]
    rw [normpathComps_dotdot ds hdsne (good_getLast_ne ds hgood)]
    rw [normpathComps_dotdot ds.dropLast hdlne (good_getLast_ne ds.dropLast hgood')]
    rw [show (["b", "c"] : List String) = ["b", "c"] ++ [] from rfl]
    rw [normpathComps_good ["b", "c"] (by decide) ds.dropLast.dropLast []]
    rw [normpathComps]
    rw [if_neg (by simp)]
    simp
  have h3 : resolveDepPath rp "vpc-network/main" = "vpc-network/main" := by
    unfold resolveDepPath
    rw [if_neg (by decide)]
  rw [h1, h2, h3]

/-- Witness for claim C7's theorem at the concrete unit directory
`live/acct1/dev/proj1/compute/db`. -/
theorem dependency_extraction_resolves_witness :
    pySplit "live/acct1/dev/proj1/compute/db" =
      ["live", "acct1", "dev", "proj1", "compute", "db"] ∧
    _get_resource_dependencies "live/acct1/dev/proj1/compute/db"
      ["../a", "../../b/c", "vpc-network/main"] =
      [pyJoin (["live", "acct1", "dev", "proj1", "compute", "db"].dropLast ++ ["a"]),
       pyJoin (["live", "acct1", "dev", "proj1", "compute", "db"].dropLast.dropLast ++
         ["b", "c"]),
       "vpc-network/main"] :=
  ⟨by decide,
    dependency_extraction_resolves "live/acct1/dev/proj1/compute/db"
      ["live", "acct1", "dev", "proj1", "compute", "db"] (by decide) (by decide) (by decide)⟩

/-! ## Lemmas about discovery and the cache-pruning walk -/

lemma emitResourceAt_clean (envFilter : Option String) (path files : List String)
    (h : emitResourceAt envFilter path files = true) : rootHasCache path = false := by
  unfold emitResourceAt at h
  by_cases hc : rootHasCache path
  · rw [if_pos hc] at h
    exact absurd h (by simp)
  · simpa using hc

lemma discoverGo_clean_aux (n : ℕ) :
    ∀ t : DirTree, sizeOf t ≤ n → ∀ (envFilter : Option String) (path q : List String),
      q ∈ discoverGo envFilter path t → rootHasCache q = false := by
  induction n with
  | zero =>
    intro t ht
    cases t with
    | node nm files children =>
      simp [DirTree.node.sizeOf_spec] at ht
  | succ m ih =>
    intro t ht envFilter path q hq
    cases t with
    | node nm files children =>
      rw [discoverGo] at hq
      have hsize : ∀ c ∈ children, sizeOf c ≤ m := by
        intro c hc
        have h1 := List.sizeOf_lt_of_mem hc
        simp only [DirTree.node.sizeOf_spec] at ht
        omega
      rcases List.mem_append.mp hq with hq | hq
      · by_cases hemit : emitResourceAt envFilter path files = true
        · rw [if_pos hemit] at hq
          rw [List.mem_singleton] at hq
          subst hq
          exact emitResourceAt_clean envFilter q files hemit
        · rw [if_neg hemit] at hq
          simp at hq
      · have hlist : ∀ (l : List DirTree), (∀ c ∈ l, sizeOf c ≤ m) → ∀ skip,
            q ∈ discoverChildren envFilter path skip l → rootHasCache q = false := by
          intro l
          induction l with
          | nil =>
            intro _ skip hmem
            rw [discoverChildren] at hmem
            simp at hmem
          | cons c cs ihl =>
            intro hsz skip hmem
            rw [discoverChildren] at hmem
            rcases List.mem_append.mp hmem with hmem | hmem
            · split at hmem
              · exact ih c (hsz c (List.mem_cons_self c cs)) envFilter
                  (path ++ [c.dirName]) q hmem
              · simp at hmem
            · exact ihl (fun c' hc' => hsz c' (List.mem_cons_of_mem c hc')) skip hmem
        exact hlist children hsize (rootHasCache path) hq

/-! ## Claim about discovery -/

/-- Claim C5: for every directory tree given to discovery (and every
environment filter), no Unit is materialized from a directory lying inside
a subtree rooted at a directory named `.terragrunt-cache` — every emitted
resource path is free of that component — and on the concrete tree whose
only unit-definition file sits under such a cache directory, discovery
yields zero resources. -/
theorem discovery_never_in_cache :
    (∀ (envFilter : Option String) (live : DirTree) (q : List String),
      q ∈ discoverGo envFilter ["live"] live → cacheDirName ∉ q) ∧
    discover_resources none cacheOnlyTree = [] := by
  constructor
  · intro envFilter live q hq hmem
    have hclean := discoverGo_clean_aux (sizeOf live) live (le_refl _) envFilter ["live"] q hq
    have : rootHasCache q = true := by
      unfold rootHasCache
      rw [List.any_eq_true]
      exact ⟨cacheDirName, hmem, by decide⟩
    rw [this] at hclean
    exact absurd hclean (by simp)
  · decide

/-- Witness for claim C5's theorem: a concrete tree with one real unit and
a cache subtree; the discovered unit's path carries no cache component. -/
theorem discovery_never_in_cache_witness :
    ["live", "acct", "dev", "proj", "compute"] ∈
      discoverGo none ["live"] exampleLiveTree ∧
    cacheDirName ∉ ["live", "acct", "dev", "proj", "compute"] :=
  ⟨by decide, discovery_never_in_cache.1 none exampleLiveTree _ (by decide)⟩

/-! ## Claims about the status probe and the command runner -/

/-- Claim C6, counterexample: a subprocess-launch exception does not yield
`unknown` — it is caught inside `run_command` (which returns
`(-1, "", str(e))`) and the probe then derives `not_deployed`, the very
same status as the non-zero-exit, empty-stdout completion, so the two
failure modes of the claim map to the same status, not distinct ones. -/
theorem status_probe_launch_exception_counterexample :
    _get_resource_status true (.ran (.raised "No such file or directory")) =
      .not_deployed ∧
    _get_resource_status true (.ran (.raised "No such file or directory")) ≠
      .unknown ∧
    _get_resource_status true (.ran (.raised "No such file or directory")) =
      _get_resource_status true (.ran (.completed 1 "" "")) := by
  decide

/-- Claim C6, amended: a status probe completing with non-zero exit code and
empty stdout derives `not_deployed`; a subprocess-launch exception is
caught inside `run_command` and surfaces as exit code `-1` with empty
stdout, which the probe also derives as `not_deployed` — the two failure
modes map to the same status.  Only an exception raised outside
`run_command` (in the source, `_prepare_environment()` failing) reaches the
probe's own exception handler and derives `unknown`, a status distinct from
`not_deployed`. -/
theorem status_probe_failure_modes (ec : Int) (out err msg emsg : String)
    (hec : ec ≠ 0) (hout : out = "") :
    _get_resource_status true (.ran (.completed ec out err)) = .not_deployed ∧
    _get_resource_status true (.ran (.raised msg)) = .not_deployed ∧
    _get_resource_status true (.envFailed emsg) = .unknown ∧
    ResourceStatus.not_deployed ≠ ResourceStatus.unknown := by
  refine ⟨?_, ?_, rfl, by decide⟩
  · unfold _get_resource_status run_command
    rw [if_neg (by simp)]
    exact if_neg (fun hand => hec hand.1)
  · unfold _get_resource_status run_command
    rw [if_neg (by simp)]
    exact if_neg (fun hand => by simpa using hand.1)

/-- Witness for claim C6's amended theorem at exit code 2, empty stdout and
concrete exception messages. -/
theorem status_probe_failure_modes_witness :
    ((2 : Int) ≠ 0 ∧ ("" : String) = "") ∧
    (_get_resource_status true (.ran (.completed 2 "" "")) = .not_deployed ∧
     _get_resource_status true (.ran (.raised "boom")) = .not_deployed ∧
     _get_resource_status true (.envFailed "bad credentials") = .unknown ∧
     ResourceStatus.not_deployed ≠ ResourceStatus.unknown) :=
  ⟨⟨by decide, rfl⟩,
    status_probe_failure_modes 2 "" "" "boom" "bad credentials" (by decide) rfl⟩

/-- Claim C8, counterexample: the timeout result is not distinguishable by
the caller from every generic (non-timeout) failure result — a launch
failure whose exception message renders as `Command timed out` produces a
result tuple identical to the timeout result, although the two runtime
outcomes are distinct. -/
theorem run_command_timeout_counterexample :
    run_command (.raised "Command timed out") 7 = run_command .timedOut 7 ∧
    ExecOutcome.raised "Command timed out" ≠ ExecOutcome.timedOut := by
  exact ⟨rfl, by simp⟩

/-- Claim C8, amended: a timed-out invocation returns the sentinel tuple
`(-1, "", "Command timed out", t)` — a negative exit code and an
explanatory stderr message — instead of raising; the result is
distinguishable from a launch-failure result exactly when the failure's
exception message differs from `Command timed out` (the exit code alone
cannot distinguish them, both being `-1`). -/
theorem run_command_timeout_sentinel (t : Nat) (msg : String) :
    run_command .timedOut t = (-1, "", "Command timed out", t) ∧
    (run_command .timedOut t).1 < 0 ∧
    (run_command (.raised msg) t = run_command .timedOut t ↔ msg = "Command timed out") := by
  refine ⟨rfl, by norm_num [run_command], ?_⟩
  unfold run_command
  constructor
  · intro h
    simpa using congrArg (fun r => r.2.2.1) h
  · intro h
    rw [h]

/-- Claim C10: `run_command` is total at its public interface — every
runtime outcome maps to a four-tuple result (the model's `ExecOutcome`
enumerates completion, timeout and raised exception, and the Python
`try`-`except` returns on each path) — a failure to launch yields exit code
`-1`, empty stdout and the exception message as stderr, and that sentinel
exit code equals the one used for timeouts. -/
theorem run_command_always_returns (o : ExecOutcome) (t : Nat) :
    (∃ rc : Int, ∃ out err : String, run_command o t = (rc, out, err, t)) ∧
    (∀ msg, run_command (.raised msg) t = (-1, "", msg, t)) ∧
    (run_command (.raised "boom") t).1 = (run_command .timedOut t).1 := by
  refine ⟨?_, fun msg => rfl, rfl⟩
  cases o with
  | completed rc out err => exact ⟨rc, out, err, rfl⟩
  | timedOut => exact ⟨-1, "", "Command timed out", rfl⟩
  | raised msg => exact ⟨-1, "", msg, rfl⟩

end TgMcp
